import Mathlib

set_option maxRecDepth 20000

/-!
Verification of `scripts/sommelier.py` (fcm-hosts-next): a TCP latency
prober, neighborhood expander, adaptive selector and round-robin load
balancer for FCM hosts generation.

Modelling conventions:
* Python strings are modelled as `List Char` (`Addr`); `str.split(sep)`
  and `sep.join(...)` are modelled by `splitOnChar` / `joinWithChar`,
  which follow Python's semantics (`"".split('.') = [""]`, etc.).
* Latencies (Python floats) are modelled as rationals `ℚ`; only order,
  addition and scaling by constants matter to the code under study.
* The network is abstracted: the outcome of one TCP connect attempt is a
  value of `ConnOutcome`, and `batch_measure` becomes an arbitrary
  function `List Addr → List SpeedResult` supplied as a parameter.
* `random.shuffle` is modelled as an arbitrary permutation-producing
  function passed as a parameter.
-/

/-- Addresses (and all Python strings handled character-wise) are lists of
characters. -/
abbrev Addr := List Char

/-- FCM 目标域名列表: the nine FCM target domains (sommelier.py lines 21-31). -/
def FCM_DOMAINS : List String :=
  ["mtalk.google.com",
   "alt1-mtalk.google.com",
   "alt2-mtalk.google.com",
   "alt3-mtalk.google.com",
   "alt4-mtalk.google.com",
   "alt5-mtalk.google.com",
   "alt6-mtalk.google.com",
   "alt7-mtalk.google.com",
   "alt8-mtalk.google.com"]

/-- MIN_IPS_PER_DOMAIN = 1 (sommelier.py line 40). -/
def MIN_IPS_PER_DOMAIN : Nat := 1

/-- SpeedResult dataclass (sommelier.py lines 43-49): one probe outcome. -/
structure SpeedResult where
  ip : Addr
  latency_ms : ℚ
  success : Bool
  error : Option String := none
deriving DecidableEq, Repr

/-- Outcome of the single TCP connect attempt inside
`TCPSpeedometer.measure`: the handshake completes after `elapsedSec`
seconds, or times out, or fails with some other error rendered as text. -/
inductive ConnOutcome where
  | ok (elapsedSec : ℚ)
  | timeout
  | connError (msg : String)
deriving DecidableEq, Repr

/-- TCPSpeedometer.measure (sommelier.py lines 59-89): wraps the connect
attempt in try/except and always returns a `SpeedResult`; latency is the
elapsed wall-clock time in milliseconds on success, the sentinel -1
otherwise. -/
def TCPSpeedometer.measure (ip : Addr) : ConnOutcome → SpeedResult
  | .ok t => { ip := ip, latency_ms := t * 1000, success := true }
  | .timeout => { ip := ip, latency_ms := -1, success := false, error := some "timeout" }
  | .connError m => { ip := ip, latency_ms := -1, success := false, error := some m }

/-- Python `str.split(sep)` for a one-character separator, on `List Char`:
`splitOnChar '.' "a.b" = ["a","b"]`, `splitOnChar '.' "" = [""]`. -/
def splitOnChar (sep : Char) : List Char → List (List Char)
  | [] => [[]]
  | c :: cs =>
    match splitOnChar sep cs with
    | [] => [[]]
    | p :: ps => if c = sep then [] :: p :: ps else (c :: p) :: ps

/-- Python `sep.join(parts)` for a one-character separator. -/
def joinWithChar (sep : Char) : List (List Char) → List Char
  | [] => []
  | p :: ps =>
    match ps with
    | [] => p
    | _ :: _ => p ++ sep :: joinWithChar sep ps

/-- Python `f"{i}"`: decimal digits of a natural number, as characters. -/
def decRepr (n : Nat) : List Char := Nat.toDigits 10 n

/-- Python `f"{i:x}"` for `i < 16`: one lowercase hexadecimal digit (the
code only instantiates it with `i < 8`). -/
def hexChar (i : Nat) : Char :=
  if i < 10 then Char.ofNat (48 + i) else Char.ofNat (87 + i)

/-- CSegmentExpander.expand_c_segment (sommelier.py lines 95-102):
扩展 IPv4 C 段, `1.2.3.4 -> 1.2.3.1 … 1.2.3.254`. -/
def expand_c_segment (ip : Addr) : List Addr :=
  let parts := splitOnChar '.' ip
  if parts.length ≠ 4 then [ip]
  else
    let pfx := joinWithChar '.' (parts.take 3) ++ ['.']
    (List.range' 1 254).map (fun i => pfx ++ decRepr i)

/-- Python `str.endswith(c)` for a one-character suffix. -/
def endsWithChar (c : Char) (s : List Char) : Bool :=
  s.getLast? = some c

/-- CSegmentExpander.expand_ipv6_block (sommelier.py lines 104-117):
扩展 IPv6 段, keeps up to the first seven colon groups as a prefix and
appends the eight hex digits 0..7. -/
def expand_ipv6_block (ip : Addr) : List Addr :=
  let parts := splitOnChar ':' ip
  if parts.length < 2 then [ip]
  else
    let pfxParts := if parts.length ≥ 7 then parts.take 7 else parts
    let pfx0 := joinWithChar ':' pfxParts
    let pfx := if endsWithChar ':' pfx0 then pfx0 else pfx0 ++ [':']
    (List.range 8).map (fun i => pfx ++ [hexChar i])

/-- AdaptiveSelector.get_c_segment (sommelier.py lines 134-139). -/
def get_c_segment (ip : Addr) : Addr :=
  let parts := splitOnChar '.' ip
  if parts.length = 4 then joinWithChar '.' (parts.take 3) ++ ['.'] else ip

/-- AdaptiveSelector.get_ipv6_block (sommelier.py lines 141-146). -/
def get_ipv6_block (ip : Addr) : Addr :=
  let parts := splitOnChar ':' ip
  if parts.length ≥ 4 then joinWithChar ':' (parts.take 4) ++ [':'] else ip

/-- Number of addresses kept by the adaptive policy
(sommelier.py line 217): `len(FCM_DOMAINS) * MIN_IPS_PER_DOMAIN = 9`. -/
def target_count : Nat := FCM_DOMAINS.length * MIN_IPS_PER_DOMAIN

/-- AdaptiveSelector.select_top_ips (sommelier.py lines 204-230): keep the
successes, sort ascending by latency, truncate to `target_count`, shuffle,
return the addresses.  `shuffle` abstracts `random.shuffle`. -/
def select_top_ips (shuffle : List SpeedResult → List SpeedResult)
    (results : List SpeedResult) : List Addr :=
  let successful := results.filter (·.success)
  if successful = [] then []
  else
    let sorted_results :=
      successful.mergeSort (fun a b => decide (a.latency_ms ≤ b.latency_ms))
    let top_ips :=
      if sorted_results.length > target_count then sorted_results.take target_count
      else sorted_results
    (shuffle top_ips).map (·.ip)

/-- LoadBalancer (sommelier.py lines 233-255): an address pool plus a
round-robin cursor.  The constructor-time `random.shuffle` is covered by
quantifying over arbitrary pools; the lock only serialises `assign` calls,
so sequential modelling is faithful. -/
structure LoadBalancer where
  ips : List Addr
  index : Nat
deriving DecidableEq, Repr

/-- LoadBalancer.assign (sommelier.py lines 243-251): empty pool yields the
empty address and leaves the state alone; otherwise return
`ips[index % len(ips)]` and advance the cursor. -/
def LoadBalancer.assign (lb : LoadBalancer) : Addr × LoadBalancer :=
  if h : lb.ips = [] then ([], lb)
  else
    (lb.ips.get ⟨lb.index % lb.ips.length, Nat.mod_lt _ (List.length_pos.mpr h)⟩,
     { lb with index := lb.index + 1 })

/-- Addresses produced by `n` successive `assign` calls, in call order. -/
def LoadBalancer.assigns (lb : LoadBalancer) : Nat → List Addr
  | 0 => []
  | n + 1 =>
    let (a, lb') := lb.assign
    a :: lb'.assigns n

/-- Block key used when grouping successful results
(sommelier.py lines 163-167): IPv6 block for addresses containing a colon,
C segment otherwise. -/
def blockKey (ip : Addr) : Addr :=
  if ':' ∈ ip then get_ipv6_block ip else get_c_segment ip

/-- Insertion-ordered dictionary update modelling
`blocks.setdefault`-style appending (sommelier.py lines 168-170): the
first occurrence of a key appends a new entry at the end, later
occurrences extend that entry's list. -/
def addToBlocks : List (Addr × List SpeedResult) → Addr → SpeedResult →
    List (Addr × List SpeedResult)
  | [], k, r => [(k, [r])]
  | (k', rs) :: t, k, r =>
    if k' = k then (k', rs ++ [r]) :: t else (k', rs) :: addToBlocks t k r

/-- Grouping loop of expand_and_rescan (sommelier.py lines 162-170): a
Python dict preserves insertion order, so it is an ordered association
list here. -/
def buildBlocks (successful : List SpeedResult) : List (Addr × List SpeedResult) :=
  successful.foldl (fun bs r => addToBlocks bs (blockKey r.ip) r) []

/-- Expansion of one block (sommelier.py lines 176-184): the first
successful result of the block seeds the family-appropriate expander. -/
def blockExpansion (b : Addr × List SpeedResult) : List Addr :=
  match b.2 with
  | [] => []
  | s :: _ => if ':' ∈ b.1 then expand_ipv6_block s.ip else expand_c_segment s.ip

/-- New addresses contributed by one block (sommelier.py lines 186-189):
the expansion minus the addresses already tested in round one. -/
def blockNewIps (tested : List Addr) (b : Addr × List SpeedResult) : List Addr :=
  (blockExpansion b).filter (fun a => ¬ a ∈ tested)

/-- Addresses queued for the second probe round
(sommelier.py lines 175-190): blocks in insertion order, each contributing
its expansion filtered against the already-tested set. -/
def rescan_candidates (initial_results : List SpeedResult) : List Addr :=
  let successful := initial_results.filter (·.success)
  let tested := initial_results.map (·.ip)
  (buildBlocks successful).foldl (fun acc b => acc ++ blockNewIps tested b) []

/-- AdaptiveSelector.expand_and_rescan (sommelier.py lines 148-202).
`batchMeasure` abstracts `batch_measure`: the network's answer to probing
a batch of addresses. -/
def expand_and_rescan (batchMeasure : List Addr → List SpeedResult)
    (initial_ips : List Addr) : List SpeedResult :=
  let initial_results := batchMeasure initial_ips
  let successful := initial_results.filter (·.success)
  if successful = [] then initial_results
  else
    let ips_to_rescan := rescan_candidates initial_results
    if ips_to_rescan = [] then initial_results
    else initial_results ++ batchMeasure ips_to_rescan

/-- Modelled from the spec: the threshold ("premium") selection policy of
spec §4.4(a) is one of the three interchangeable strategies, but only the
adaptive top-K strategy is present under `scripts/`; this definition
follows the spec's words.  Filter to successes (empty output if none);
with `m` the minimum latency among successes, keep every success with
latency at most `max (m + offsetMs) (m * multiplier)`, sorted ascending by
latency. -/
def thresholdPolicy (offsetMs multiplier : ℚ) (results : List SpeedResult) : List Addr :=
  let successful := results.filter (·.success)
  if successful = [] then []
  else
    let m := ((successful.map (·.latency_ms)).min?).getD 0
    let thr := max (m + offsetMs) (m * multiplier)
    ((successful.filter (fun r => r.latency_ms ≤ thr)).mergeSort
      (fun a b => decide (a.latency_ms ≤ b.latency_ms))).map (·.ip)

/-! ## Helper lemmas -/

lemma succ_div_mod_of_lt {N M : Nat} (hN : 0 < N) (h : M % N + 1 < N) :
    (M + 1) / N = M / N ∧ (M + 1) % N = M % N + 1 := by
  have hd := Nat.div_add_mod M N
  have h1 : M + 1 = (M % N + 1) + N * (M / N) := by omega
  constructor
  · rw [h1, Nat.add_mul_div_left _ _ hN, Nat.div_eq_of_lt h, Nat.zero_add]
  · rw [h1, Nat.add_mul_mod_self_left, Nat.mod_eq_of_lt h]

lemma succ_div_mod_of_eq {N M : Nat} (hN : 0 < N) (h : M % N + 1 = N) :
    (M + 1) / N = M / N + 1 ∧ (M + 1) % N = 0 := by
  have hd := Nat.div_add_mod M N
  have h1 : M + 1 = N * (M / N + 1) := by rw [Nat.mul_succ]; omega
  constructor
  · rw [h1, Nat.mul_div_cancel_left _ hN]
  · rw [h1, Nat.mul_mod_right]

lemma count_range_mod (N j : Nat) (hj : j < N) (M : Nat) :
    ((List.range M).filter (fun k => decide (k % N = j))).length
      = M / N + if j < M % N then 1 else 0 := by
  have hN : 0 < N := Nat.pos_of_ne_zero (by omega)
  induction M with
  | zero => simp
  | succ M ih =>
    have hmlt : M % N < N := Nat.mod_lt _ hN
    rw [List.range_succ, List.filter_append, List.length_append, ih]
    have hsingle : (([M].filter (fun k => decide (k % N = j)))).length
        = if M % N = j then 1 else 0 := by
      by_cases h : M % N = j <;> simp [h]
    rw [hsingle]
    rcases Nat.lt_or_ge (M % N + 1) N with hlt | hge
    · obtain ⟨hdiv, hmod⟩ := succ_div_mod_of_lt hN hlt
      rw [hdiv, hmod]
      split_ifs <;> omega
    · have heq : M % N + 1 = N := by omega
      obtain ⟨hdiv, hmod⟩ := succ_div_mod_of_eq hN heq
      rw [hdiv, hmod]
      split_ifs <;> omega

lemma ceil_div_eq (N M : Nat) (hN : 0 < N) :
    (M + N - 1) / N = M / N + if M % N = 0 then 0 else 1 := by
  have hd := Nat.div_add_mod M N
  have hmlt : M % N < N := Nat.mod_lt _ hN
  by_cases h : M % N = 0
  · have h1 : M + N - 1 = (N - 1) + N * (M / N) := by omega
    rw [h1, Nat.add_mul_div_left _ _ hN, Nat.div_eq_of_lt (by omega), Nat.zero_add, h]
    simp
  · have h1 : M + N - 1 = (M % N - 1) + N * (M / N + 1) := by rw [Nat.mul_succ]; omega
    rw [h1, Nat.add_mul_div_left _ _ hN, Nat.div_eq_of_lt (by omega), Nat.zero_add]
    simp [h]

lemma assign_nonempty (ips : List Addr) (hne : ips ≠ []) (c : Nat) :
    (LoadBalancer.mk ips c).assign =
      (ips.get ⟨c % ips.length, Nat.mod_lt _ (List.length_pos.mpr hne)⟩,
       LoadBalancer.mk ips (c + 1)) := by
  simp [LoadBalancer.assign, hne]

lemma assigns_formula (ips : List Addr) (hne : ips ≠ []) (M : Nat) : ∀ c : Nat,
    (LoadBalancer.mk ips c).assigns M =
      (List.range M).map
        (fun k => ips.get ⟨(c + k) % ips.length, Nat.mod_lt _ (List.length_pos.mpr hne)⟩) := by
  induction M with
  | zero => intro c; simp [LoadBalancer.assigns]
  | succ n ih =>
    intro c
    have key : (LoadBalancer.mk ips c).assigns (n + 1) =
        ips.get ⟨c % ips.length, Nat.mod_lt _ (List.length_pos.mpr hne)⟩ ::
          (LoadBalancer.mk ips (c + 1)).assigns n := by
      simp only [LoadBalancer.assigns, assign_nonempty ips hne c]
    rw [key, ih (c + 1), List.range_succ_eq_map, List.map_cons, List.map_map]
    congr 1
    apply List.map_congr_left
    intro k hk
    simp only [Function.comp_apply]
    have hck : c + 1 + k = c + (k + 1) := by omega
    rw [hck]


/-! ## Claim theorems: prober and load balancer -/

/-- Claim C3: `TCPSpeedometer.measure` never lets an exception escape: every
connect outcome is reported as a `SpeedResult`; a timeout gives a failure
with error exactly "timeout", and any other connection error gives a
failure whose error field is the underlying reason as text. -/
theorem measure_never_raises (ip : Addr) (o : ConnOutcome) :
    (o = ConnOutcome.timeout →
      TCPSpeedometer.measure ip o =
        { ip := ip, latency_ms := -1, success := false, error := some "timeout" }) ∧
    (∀ m, o = ConnOutcome.connError m →
      (TCPSpeedometer.measure ip o).success = false ∧
      (TCPSpeedometer.measure ip o).error = some m) ∧
    (∀ t, o = ConnOutcome.ok t →
      (TCPSpeedometer.measure ip o).success = true) := by
  refine ⟨fun h => ?_, fun m h => ?_, fun t h => ?_⟩ <;> subst h <;>
    simp [TCPSpeedometer.measure]

theorem measure_never_raises_witness :
    TCPSpeedometer.measure [] ConnOutcome.timeout =
      { ip := [], latency_ms := -1, success := false, error := some "timeout" } :=
  (measure_never_raises [] ConnOutcome.timeout).1 rfl

/-- Claim C10: invariant of every prober-produced `SpeedResult`: a failure
carries the sentinel latency -1 and a non-`none` error, and a success
carries a nonnegative latency and no error.  The hypothesis records that
wall-clock elapsed time is nonnegative. -/
theorem measure_result_invariant (ip : Addr) (o : ConnOutcome)
    (h : ∀ t, o = ConnOutcome.ok t → 0 ≤ t) :
    ((TCPSpeedometer.measure ip o).success = false →
      (TCPSpeedometer.measure ip o).latency_ms = -1 ∧
      (TCPSpeedometer.measure ip o).error ≠ none) ∧
    ((TCPSpeedometer.measure ip o).success = true →
      0 ≤ (TCPSpeedometer.measure ip o).latency_ms ∧
      (TCPSpeedometer.measure ip o).error = none) := by
  cases o with
  | ok t =>
    refine ⟨by simp [TCPSpeedometer.measure], fun _ => ⟨?_, rfl⟩⟩
    have ht : 0 ≤ t := h t rfl
    simpa [TCPSpeedometer.measure] using mul_nonneg ht (by norm_num : (0:ℚ) ≤ 1000)
  | timeout => simp [TCPSpeedometer.measure]
  | connError m => simp [TCPSpeedometer.measure]

theorem measure_result_invariant_witness :
    0 ≤ (TCPSpeedometer.measure [] (ConnOutcome.ok 1)).latency_ms ∧
    (TCPSpeedometer.measure [] (ConnOutcome.ok 1)).error = none :=
  (measure_result_invariant [] (ConnOutcome.ok 1)
    (fun t ht => by cases ht; norm_num)).2 rfl

/-- Claim C9: with an empty pool, `assign` never fails: it returns the
designated absent address (the empty string) and leaves the cursor state
unchanged, for every cursor value. -/
theorem assign_empty_pool (c : Nat) :
    (LoadBalancer.mk [] c).assign = ([], LoadBalancer.mk [] c) := by
  simp [LoadBalancer.assign]

/-- Claim C8: round-robin fairness of the load balancer.  `assign` on a
non-empty pool returns `pool[cursor % N]` and advances the cursor, and over
`M ≥ N` calls starting from a fresh balancer each pool address is assigned
either `⌊M/N⌋` or `⌈M/N⌉` (i.e. `(M+N-1)/N`) times. -/
theorem round_robin_fair (ips : List Addr) (hne : ips ≠ []) (hnd : ips.Nodup)
    (M : Nat) (hM : ips.length ≤ M) (a : Addr) (ha : a ∈ ips) :
    (∀ c : Nat, (LoadBalancer.mk ips c).assign =
      (ips.get ⟨c % ips.length, Nat.mod_lt _ (List.length_pos.mpr hne)⟩,
       LoadBalancer.mk ips (c + 1))) ∧
    (((LoadBalancer.mk ips 0).assigns M).count a = M / ips.length ∨
     ((LoadBalancer.mk ips 0).assigns M).count a = (M + ips.length - 1) / ips.length) := by
  have hpos : 0 < ips.length := List.length_pos.mpr hne
  refine ⟨fun c => assign_nonempty ips hne c, ?_⟩
  obtain ⟨⟨j, hj⟩, rfl⟩ := List.mem_iff_get.mp ha
  rw [assigns_formula ips hne M 0]
  have hcount : ((List.range M).map
      (fun k => ips.get ⟨(0 + k) % ips.length, Nat.mod_lt _ hpos⟩)).count
        (ips.get ⟨j, hj⟩)
      = ((List.range M).filter (fun k => decide (k % ips.length = j))).length := by
    rw [List.count_eq_countP, List.countP_map, ← List.countP_eq_length_filter]
    apply List.countP_congr
    intro k _
    simp only [Function.comp_apply, beq_iff_eq, decide_eq_true_eq, Nat.zero_add]
    rw [List.Nodup.get_inj_iff hnd]
    simp [Fin.ext_iff]
  rw [hcount, count_range_mod ips.length j hj M]
  by_cases hlt : j < M % ips.length
  · right
    have h0 : ¬ (M % ips.length = 0) := by omega
    rw [ceil_div_eq ips.length M hpos, if_pos hlt, if_neg h0]
  · left
    simp [if_neg hlt]

theorem round_robin_fair_witness :
    (∀ c : Nat, (LoadBalancer.mk [['a'], ['b']] c).assign =
      (([['a'], ['b']] : List Addr).get
        ⟨c % ([['a'], ['b']] : List Addr).length,
         Nat.mod_lt _ (List.length_pos.mpr (by decide))⟩,
       LoadBalancer.mk [['a'], ['b']] (c + 1))) ∧
    (((LoadBalancer.mk [['a'], ['b']] 0).assigns 3).count ['a']
        = 3 / ([['a'], ['b']] : List Addr).length ∨
     ((LoadBalancer.mk [['a'], ['b']] 0).assigns 3).count ['a']
        = (3 + ([['a'], ['b']] : List Addr).length - 1) / ([['a'], ['b']] : List Addr).length) :=
  round_robin_fair [['a'], ['b']] (by decide) (by decide) 3 (by decide) ['a'] (by decide)

/-! ## Claim theorems: adaptive top-K selection -/

lemma latLE_trans : ∀ a b c : SpeedResult,
    (fun a b : SpeedResult => decide (a.latency_ms ≤ b.latency_ms)) a b →
    (fun a b : SpeedResult => decide (a.latency_ms ≤ b.latency_ms)) b c →
    (fun a b : SpeedResult => decide (a.latency_ms ≤ b.latency_ms)) a c := by
  intro a b c h1 h2
  simp only [decide_eq_true_eq] at *
  exact le_trans h1 h2

lemma latLE_total : ∀ a b : SpeedResult,
    (fun a b : SpeedResult => decide (a.latency_ms ≤ b.latency_ms)) a b ||
    (fun a b : SpeedResult => decide (a.latency_ms ≤ b.latency_ms)) b a := by
  intro a b
  simp only [Bool.or_eq_true, decide_eq_true_eq]
  exact le_total _ _

lemma select_top_ips_eq (shuffle : List SpeedResult → List SpeedResult)
    (results : List SpeedResult) (hemp : results.filter (·.success) ≠ []) :
    select_top_ips shuffle results =
      (shuffle ((results.filter (·.success)).mergeSort
          (fun a b => decide (a.latency_ms ≤ b.latency_ms)) |>.take
        (min target_count ((results.filter (·.success)).mergeSort
          (fun a b => decide (a.latency_ms ≤ b.latency_ms))).length))).map (·.ip) := by
  simp only [select_top_ips, if_neg hemp]
  congr 2
  by_cases hgt : ((results.filter (·.success)).mergeSort
      (fun a b => decide (a.latency_ms ≤ b.latency_ms))).length > target_count
  · rw [if_pos hgt, Nat.min_eq_left (Nat.le_of_lt hgt)]
  · rw [if_neg hgt, Nat.min_eq_right (Nat.le_of_not_lt hgt),
      List.take_of_length_le (Nat.le_refl _)]

lemma select_top_ips_perm_of_short (shuffle : List SpeedResult → List SpeedResult)
    (hs : ∀ l, (shuffle l).Perm l) (results : List SpeedResult)
    (hemp : results.filter (·.success) ≠ [])
    (hshort : (results.filter (·.success)).length ≤ target_count) :
    (select_top_ips shuffle results).Perm
      ((results.filter (·.success)).map (·.ip)) := by
  rw [select_top_ips_eq shuffle results hemp]
  have hperm := List.mergeSort_perm (results.filter (·.success))
    (fun a b => decide (a.latency_ms ≤ b.latency_ms))
  have hlen := hperm.length_eq
  have hmin : min target_count ((results.filter (·.success)).mergeSort
      (fun a b => decide (a.latency_ms ≤ b.latency_ms))).length
      = ((results.filter (·.success)).mergeSort
          (fun a b => decide (a.latency_ms ≤ b.latency_ms))).length :=
    Nat.min_eq_right (by rw [hlen]; exact hshort)
  rw [hmin, List.take_length]
  exact ((hs _).trans hperm).map _

/-- Claim C1: the adaptive top-K policy keeps `min K successCount` results
(K = target_count = 9, the number of FCM domains): the successes split into
`kept ++ dropped` (up to permutation), the output is exactly the addresses
of `kept` (up to the shuffle's permutation), `kept` has `min K successCount`
members, and every kept latency is at most every dropped latency. -/
theorem select_top_ips_adaptive_topK (shuffle : List SpeedResult → List SpeedResult)
    (hs : ∀ l, (shuffle l).Perm l) (results : List SpeedResult) :
    target_count = 9 ∧
    (select_top_ips shuffle results).length
      = min target_count (results.filter (·.success)).length ∧
    ∃ kept dropped : List SpeedResult,
      (kept ++ dropped).Perm (results.filter (·.success)) ∧
      (select_top_ips shuffle results).Perm (kept.map (·.ip)) ∧
      kept.length = min target_count (results.filter (·.success)).length ∧
      ∀ a ∈ kept, ∀ b ∈ dropped, a.latency_ms ≤ b.latency_ms := by
  by_cases hemp : results.filter (·.success) = []
  · refine ⟨rfl, ?_, [], [], ?_, ?_, ?_, ?_⟩ <;>
      simp [select_top_ips, hemp]
  · have hperm := List.mergeSort_perm (results.filter (·.success))
      (fun a b => decide (a.latency_ms ≤ b.latency_ms))
    have hpair := List.sorted_mergeSort latLE_trans latLE_total
      (results.filter (·.success))
    have hlen : ((results.filter (·.success)).mergeSort
        (fun a b => decide (a.latency_ms ≤ b.latency_ms))).length
        = (results.filter (·.success)).length := hperm.length_eq
    set sorted := (results.filter (·.success)).mergeSort
      (fun a b => decide (a.latency_ms ≤ b.latency_ms)) with hsorted
    set k := min target_count sorted.length with hk
    have hkle : k ≤ sorted.length := Nat.min_le_right _ _
    have hsplit : sorted.take k ++ sorted.drop k = sorted := List.take_append_drop k sorted
    have hkeptlen : (sorted.take k).length = k := by
      rw [List.length_take]
      exact Nat.min_eq_left hkle
    have houtlen : (select_top_ips shuffle results).length = k := by
      rw [select_top_ips_eq shuffle results hemp, List.length_map,
        (hs _).length_eq, hkeptlen]
    refine ⟨rfl, by rw [houtlen, hk, hlen], sorted.take k, sorted.drop k, ?_, ?_, ?_, ?_⟩
    · rw [hsplit]; exact hperm
    · rw [select_top_ips_eq shuffle results hemp]
      exact (hs _).map _
    · rw [hkeptlen, hk, hlen]
    · have hpairsplit := hsplit ▸ hpair
      have := (List.pairwise_append.mp hpairsplit).2.2
      intro a ha b hb
      have h := this a ha b hb
      simpa using h

theorem select_top_ips_adaptive_topK_witness :
    target_count = 9 ∧
    (select_top_ips id
        [{ ip := ['a'], latency_ms := 5, success := true }]).length
      = min target_count
          (([{ ip := ['a'], latency_ms := 5, success := true }] : List SpeedResult).filter
            (·.success)).length ∧
    ∃ kept dropped : List SpeedResult,
      (kept ++ dropped).Perm
        (([{ ip := ['a'], latency_ms := 5, success := true }] : List SpeedResult).filter
          (·.success)) ∧
      (select_top_ips id
          [{ ip := ['a'], latency_ms := 5, success := true }]).Perm (kept.map (·.ip)) ∧
      kept.length = min target_count
          (([{ ip := ['a'], latency_ms := 5, success := true }] : List SpeedResult).filter
            (·.success)).length ∧
      ∀ a ∈ kept, ∀ b ∈ dropped, a.latency_ms ≤ b.latency_ms :=
  select_top_ips_adaptive_topK id (fun l => List.Perm.refl l)
    [{ ip := ['a'], latency_ms := 5, success := true }]

/-- Claim C2 counterexample: the selection policy does not deduplicate
addresses.  Two successful results for the same address both survive
`select_top_ips` (here with the identity permutation as the shuffle, one
of the permutations `random.shuffle` can produce), so the output has a
duplicate address. -/
theorem select_top_ips_duplicates_cex :
    ¬ (select_top_ips id
        [{ ip := ['a'], latency_ms := 1, success := true },
         { ip := ['a'], latency_ms := 2, success := true }]).Nodup := by
  intro h
  have hcex := select_top_ips_perm_of_short id (fun l => List.Perm.refl l)
    [{ ip := ['a'], latency_ms := 1, success := true },
     { ip := ['a'], latency_ms := 2, success := true }] (by decide) (by decide)
  exact absurd ((hcex.nodup_iff).mp h) (by decide)

/-- Claim C2 (amended): if the input results have pairwise-distinct
addresses, the candidate list returned by `select_top_ips` has no
duplicate addresses (for every permutation the shuffle may apply). -/
theorem select_top_ips_nodup_of_distinct (shuffle : List SpeedResult → List SpeedResult)
    (hs : ∀ l, (shuffle l).Perm l) (results : List SpeedResult)
    (hnd : (results.map (·.ip)).Nodup) :
    (select_top_ips shuffle results).Nodup := by
  by_cases hemp : results.filter (·.success) = []
  · simp [select_top_ips, hemp]
  · have h1 : ((results.filter (·.success)).map (·.ip)).Nodup :=
      List.Nodup.sublist (List.Sublist.map _ (List.filter_sublist results)) hnd
    have hperm := List.mergeSort_perm (results.filter (·.success))
      (fun a b => decide (a.latency_ms ≤ b.latency_ms))
    have h2 : (((results.filter (·.success)).mergeSort
        (fun a b => decide (a.latency_ms ≤ b.latency_ms))).map (·.ip)).Nodup :=
      ((hperm.map (·.ip)).nodup_iff).mpr h1
    have h3 : ((((results.filter (·.success)).mergeSort
        (fun a b => decide (a.latency_ms ≤ b.latency_ms))).take
          (min target_count ((results.filter (·.success)).mergeSort
            (fun a b => decide (a.latency_ms ≤ b.latency_ms))).length)).map (·.ip)).Nodup :=
      List.Nodup.sublist (List.Sublist.map _ (List.take_sublist _ _)) h2
    rw [select_top_ips_eq shuffle results hemp]
    exact (((hs _).map (·.ip)).nodup_iff).mpr h3

theorem select_top_ips_nodup_of_distinct_witness :
    (select_top_ips id
      [{ ip := ['a'], latency_ms := 1, success := true },
       { ip := ['b'], latency_ms := 2, success := true }]).Nodup :=
  select_top_ips_nodup_of_distinct id (fun l => List.Perm.refl l)
    [{ ip := ['a'], latency_ms := 1, success := true },
     { ip := ['b'], latency_ms := 2, success := true }] (by decide)

/-! ## Claim theorems: threshold policy (spec-modelled) -/

/-- Claim C4: the threshold policy (spec-modelled, as it is absent from
`scripts/`) returns, when at least one success exists, exactly the
successes whose latency is at most `max (m + offsetMs) (m * multiplier)`
where `m` is the minimum latency among successes, sorted ascending by
latency; and returns the empty list when no success exists. -/
theorem thresholdPolicy_spec (offsetMs multiplier : ℚ) (results : List SpeedResult) :
    (results.filter (·.success) = [] → thresholdPolicy offsetMs multiplier results = []) ∧
    (results.filter (·.success) ≠ [] →
      ∃ m : ℚ,
        m ∈ (results.filter (·.success)).map (·.latency_ms) ∧
        (∀ x ∈ (results.filter (·.success)).map (·.latency_ms), m ≤ x) ∧
        ∃ l : List SpeedResult,
          thresholdPolicy offsetMs multiplier results = l.map (·.ip) ∧
          l.Perm ((results.filter (·.success)).filter
            (fun r => r.latency_ms ≤ max (m + offsetMs) (m * multiplier))) ∧
          l.Pairwise (fun a b => a.latency_ms ≤ b.latency_ms)) := by
  constructor
  · intro h
    simp [thresholdPolicy, h]
  · intro hemp
    have hmapne : (results.filter (·.success)).map (·.latency_ms) ≠ [] := by
      simpa using hemp
    obtain ⟨m, hm⟩ : ∃ m,
        ((results.filter (·.success)).map (·.latency_ms)).min? = some m := by
      cases h : ((results.filter (·.success)).map (·.latency_ms)).min? with
      | none => exact absurd (List.min?_eq_none_iff.mp h) hmapne
      | some m => exact ⟨m, rfl⟩
    have hgetD : (((results.filter (·.success)).map (·.latency_ms)).min?).getD 0 = m := by
      rw [hm]; rfl
    refine ⟨m, List.min?_mem (fun a b => min_choice a b) hm, ?_, ?_⟩
    · intro x hx
      exact (List.le_min?_iff (fun a b c => le_min_iff) hm).mp (le_refl m) x hx
    · refine ⟨((results.filter (·.success)).filter
          (fun r => r.latency_ms ≤ max (m + offsetMs) (m * multiplier))).mergeSort
            (fun a b => decide (a.latency_ms ≤ b.latency_ms)), ?_, ?_, ?_⟩
      · simp only [thresholdPolicy, if_neg hemp, hgetD]
      · exact List.mergeSort_perm _ _
      · have hpair := List.sorted_mergeSort latLE_trans latLE_total
          ((results.filter (·.success)).filter
            (fun r => r.latency_ms ≤ max (m + offsetMs) (m * multiplier)))
        exact hpair.imp fun h => by simpa using h

theorem thresholdPolicy_spec_witness :
    ∃ m : ℚ,
      m ∈ (([{ ip := ['a'], latency_ms := 20, success := true }] : List SpeedResult).filter
        (·.success)).map (·.latency_ms) ∧
      (∀ x ∈ (([{ ip := ['a'], latency_ms := 20, success := true }] : List SpeedResult).filter
        (·.success)).map (·.latency_ms), m ≤ x) ∧
      ∃ l : List SpeedResult,
        thresholdPolicy 50 1.3 [{ ip := ['a'], latency_ms := 20, success := true }]
          = l.map (·.ip) ∧
        l.Perm ((([{ ip := ['a'], latency_ms := 20, success := true }] : List SpeedResult).filter
          (·.success)).filter
            (fun r => r.latency_ms ≤ max (m + 50) (m * 1.3))) ∧
        l.Pairwise (fun a b => a.latency_ms ≤ b.latency_ms) :=
  (thresholdPolicy_spec 50 1.3
    [{ ip := ['a'], latency_ms := 20, success := true }]).2 (by decide)

/-! ## Split/join lemmas for the block expanders -/

lemma splitOnChar_ne_nil (sep : Char) (l : List Char) : splitOnChar sep l ≠ [] := by
  induction l with
  | nil => simp [splitOnChar]
  | cons c cs ih =>
    simp only [splitOnChar]
    cases h : splitOnChar sep cs with
    | nil => simp
    | cons p ps => by_cases hc : c = sep <;> simp [hc]

lemma splitOnChar_sep_cons (sep : Char) (l : List Char) :
    splitOnChar sep (sep :: l) = [] :: splitOnChar sep l := by
  simp only [splitOnChar]
  cases h : splitOnChar sep l with
  | nil => exact absurd h (splitOnChar_ne_nil sep l)
  | cons p ps => simp

lemma splitOnChar_cons_ne (sep c : Char) (hc : c ≠ sep) (l : List Char) :
    ∃ p ps, splitOnChar sep l = p :: ps ∧
      splitOnChar sep (c :: l) = (c :: p) :: ps := by
  cases h : splitOnChar sep l with
  | nil => exact absurd h (splitOnChar_ne_nil sep l)
  | cons p ps =>
    exact ⟨p, ps, rfl, by simp only [splitOnChar, h, if_neg hc]⟩

lemma splitOnChar_no_sep (sep : Char) (l : List Char) (h : sep ∉ l) :
    splitOnChar sep l = [l] := by
  induction l with
  | nil => rfl
  | cons c cs ih =>
    have hc : c ≠ sep := fun e => h (e ▸ List.mem_cons_self c cs)
    have hcs : sep ∉ cs := fun hm => h (List.mem_cons_of_mem _ hm)
    obtain ⟨p, ps, h1, h2⟩ := splitOnChar_cons_ne sep c hc cs
    rw [ih hcs] at h1
    cases h1
    simpa using h2

lemma splitOnChar_append_sep (sep : Char) (a rest : List Char) (ha : sep ∉ a) :
    splitOnChar sep (a ++ sep :: rest) = a :: splitOnChar sep rest := by
  induction a with
  | nil => simpa using splitOnChar_sep_cons sep rest
  | cons c cs ih =>
    have hc : c ≠ sep := fun e => ha (e ▸ List.mem_cons_self c cs)
    have hcs : sep ∉ cs := fun hm => ha (List.mem_cons_of_mem _ hm)
    obtain ⟨p, ps, h1, h2⟩ := splitOnChar_cons_ne sep c hc (cs ++ sep :: rest)
    rw [ih hcs] at h1
    cases h1
    simpa using h2

lemma joinWithChar_cons_cons (sep : Char) (p q : List Char) (qs : List (List Char)) :
    joinWithChar sep (p :: q :: qs) = p ++ sep :: joinWithChar sep (q :: qs) := rfl

lemma splitOnChar_joinWithChar (sep : Char) (ps : List (List Char))
    (hne : ps ≠ []) (h : ∀ p ∈ ps, sep ∉ p) :
    splitOnChar sep (joinWithChar sep ps) = ps := by
  induction ps with
  | nil => exact absurd rfl hne
  | cons p ps ih =>
    cases ps with
    | nil =>
      have : joinWithChar sep [p] = p := rfl
      rw [this, splitOnChar_no_sep sep p (h p (List.mem_cons_self p []))]
    | cons q qs =>
      rw [joinWithChar_cons_cons,
        splitOnChar_append_sep sep p _ (h p (List.mem_cons_self p _)),
        ih (by simp) (fun r hr => h r (List.mem_cons_of_mem _ hr))]

lemma splitOnChar_parts_no_sep (sep : Char) (l : List Char) :
    ∀ p ∈ splitOnChar sep l, sep ∉ p := by
  induction l with
  | nil => intro p hp; simp [splitOnChar] at hp; simp [hp]
  | cons c cs ih =>
    intro p hp
    by_cases hc : c = sep
    · subst hc
      rw [splitOnChar_sep_cons] at hp
      rcases List.mem_cons.mp hp with rfl | hp'
      · simp
      · exact ih p hp'
    · obtain ⟨q, qs, h1, h2⟩ := splitOnChar_cons_ne sep c hc cs
      rw [h2] at hp
      rcases List.mem_cons.mp hp with rfl | hp'
      · intro hmem
        rcases List.mem_cons.mp hmem with e | hq
        · exact hc e.symm
        · exact ih q (h1 ▸ List.mem_cons_self q qs) hq
      · exact ih p (h1 ▸ List.mem_cons_of_mem q hp')

lemma joinWithChar_append_single (sep : Char) (q : List Char) :
    ∀ ps : List (List Char), ps ≠ [] →
      joinWithChar sep (ps ++ [q]) = joinWithChar sep ps ++ sep :: q := by
  intro ps
  induction ps with
  | nil => intro h; exact absurd rfl h
  | cons p ps ih =>
    intro _
    cases ps with
    | nil => rfl
    | cons r rs =>
      have h1 : joinWithChar sep ((p :: r :: rs) ++ [q])
          = p ++ sep :: joinWithChar sep ((r :: rs) ++ [q]) := rfl
      have h2 : joinWithChar sep (p :: r :: rs)
          = p ++ sep :: joinWithChar sep (r :: rs) := rfl
      rw [h1, h2, ih (by simp)]
      simp [List.append_assoc]

lemma getLast?_joinWithChar (sep : Char) (ps : List (List Char)) (q : List Char)
    (hq : q ≠ []) :
    (joinWithChar sep (ps ++ [q])).getLast? = q.getLast? := by
  cases ps with
  | nil => rfl
  | cons p ps' =>
    rw [joinWithChar_append_single sep q (p :: ps') (by simp)]
    obtain ⟨x, xs, rfl⟩ : ∃ x xs, q = x :: xs := by
      cases q with
      | nil => exact absurd rfl hq
      | cons x xs => exact ⟨x, xs, rfl⟩
    rw [List.getLast?_append_of_ne_nil _ (by simp : (sep :: x :: xs : List Char) ≠ [])]
    simp

/-! ## Claim theorems: block expanders -/

lemma decRepr_no_dot : ∀ i ∈ List.range' 1 254, '.' ∉ decRepr i := by decide

set_option maxHeartbeats 1600000 in
lemma decRepr_nodup_range : ((List.range' 1 254).map decRepr).Nodup := by decide

lemma expand_c_segment_eq (ip : Addr) (hp : (splitOnChar '.' ip).length = 4) :
    expand_c_segment ip = (List.range' 1 254).map
      (fun i => (joinWithChar '.' ((splitOnChar '.' ip).take 3) ++ ['.']) ++ decRepr i) := by
  simp only [expand_c_segment]
  rw [if_neg (by omega)]

lemma expand_c_segment_split (ip : Addr) (hp : (splitOnChar '.' ip).length = 4)
    (i : Nat) (hi : i ∈ List.range' 1 254) :
    splitOnChar '.' ((joinWithChar '.' ((splitOnChar '.' ip).take 3) ++ ['.']) ++ decRepr i)
      = (splitOnChar '.' ip).take 3 ++ [decRepr i] := by
  have htake_ne : (splitOnChar '.' ip).take 3 ≠ [] := by
    intro h
    have := congrArg List.length h
    simp [List.length_take, hp] at this
  have hjoin : joinWithChar '.' ((splitOnChar '.' ip).take 3 ++ [decRepr i])
      = joinWithChar '.' ((splitOnChar '.' ip).take 3) ++ '.' :: decRepr i :=
    joinWithChar_append_single '.' (decRepr i) _ htake_ne
  have heq : (joinWithChar '.' ((splitOnChar '.' ip).take 3) ++ ['.']) ++ decRepr i
      = joinWithChar '.' ((splitOnChar '.' ip).take 3 ++ [decRepr i]) := by
    rw [hjoin, List.append_assoc]
    rfl
  rw [heq]
  apply splitOnChar_joinWithChar
  · simp
  · intro p hp'
    rcases List.mem_append.mp hp' with h | h
    · exact splitOnChar_parts_no_sep '.' ip p (List.take_subset 3 _ h)
    · rcases List.mem_singleton.mp h with rfl
      exact decRepr_no_dot i hi

/-- Claim C5 counterexample: the IPv4 expansion is claimed not to include
the seed address, but `expand_c_segment "1.2.3.4"` does contain
`"1.2.3.4"` itself (the host octet 4 lies in the enumerated range 1-254). -/
theorem expand_c_segment_includes_seed_cex :
    (splitOnChar '.' ("1.2.3.4".toList)).length = 4 ∧
    "1.2.3.4".toList ∈ expand_c_segment ("1.2.3.4".toList) := by
  decide

/-- Claim C5 (amended): for every four-group IPv4 literal the expander
returns exactly 254 pairwise-distinct addresses, one for each host octet
1..254 (so the seed itself is included whenever its host octet lies in
1..254), each sharing the seed's first three dotted groups. -/
theorem expand_c_segment_spec (ip : Addr)
    (hp : (splitOnChar '.' ip).length = 4) :
    (expand_c_segment ip).length = 254 ∧
    (expand_c_segment ip).Nodup ∧
    (∀ a ∈ expand_c_segment ip, ∃ i, 1 ≤ i ∧ i ≤ 254 ∧
      splitOnChar '.' a = (splitOnChar '.' ip).take 3 ++ [decRepr i]) ∧
    (∀ i, 1 ≤ i → i ≤ 254 →
      ∃ a ∈ expand_c_segment ip,
        splitOnChar '.' a = (splitOnChar '.' ip).take 3 ++ [decRepr i]) := by
  rw [expand_c_segment_eq ip hp]
  refine ⟨by simp, ?_, ?_, ?_⟩
  · have hmm : (List.range' 1 254).map
        (fun i => (joinWithChar '.' ((splitOnChar '.' ip).take 3) ++ ['.']) ++ decRepr i)
        = ((List.range' 1 254).map decRepr).map
            (fun d => (joinWithChar '.' ((splitOnChar '.' ip).take 3) ++ ['.']) ++ d) := by
      rw [List.map_map]
      rfl
    rw [hmm]
    exact List.Nodup.map (fun x y h => List.append_cancel_left h) decRepr_nodup_range
  · intro a ha
    obtain ⟨i, hi, rfl⟩ := List.mem_map.mp ha
    obtain ⟨k, hk, hik⟩ := List.mem_range'.mp hi
    refine ⟨i, by omega, by omega, expand_c_segment_split ip hp i hi⟩
  · intro i h1 h2
    have hi : i ∈ List.range' 1 254 := List.mem_range'.mpr ⟨i - 1, by omega, by omega⟩
    exact ⟨_, List.mem_map_of_mem _ hi, expand_c_segment_split ip hp i hi⟩

theorem expand_c_segment_spec_witness :
    (splitOnChar '.' ("1.2.3.4".toList)).length = 4 ∧
    ((expand_c_segment ("1.2.3.4".toList)).length = 254 ∧
     (expand_c_segment ("1.2.3.4".toList)).Nodup ∧
     (∀ a ∈ expand_c_segment ("1.2.3.4".toList), ∃ i, 1 ≤ i ∧ i ≤ 254 ∧
       splitOnChar '.' a = (splitOnChar '.' ("1.2.3.4".toList)).take 3 ++ [decRepr i]) ∧
     (∀ i, 1 ≤ i → i ≤ 254 →
       ∃ a ∈ expand_c_segment ("1.2.3.4".toList),
         splitOnChar '.' a = (splitOnChar '.' ("1.2.3.4".toList)).take 3 ++ [decRepr i])) :=
  ⟨by decide, expand_c_segment_spec ("1.2.3.4".toList) (by decide)⟩

lemma hexChar_no_colon : ∀ i ∈ List.range 8, ':' ∉ [hexChar i] := by decide

lemma expand_ipv6_pfx0_getLast (ip : Addr) (h8 : (splitOnChar ':' ip).length = 8)
    (h7 : (splitOnChar ':' ip).getD 6 [] ≠ []) :
    (joinWithChar ':' ((splitOnChar ':' ip).take 7)).getLast?
      = ((splitOnChar ':' ip).getD 6 []).getLast? := by
  have h6lt : 6 < (splitOnChar ':' ip).length := by omega
  have hq : (splitOnChar ':' ip)[6]? = some ((splitOnChar ':' ip).get ⟨6, h6lt⟩) := by
    rw [List.getElem?_eq_getElem h6lt]
    rfl
  have hgetD : (splitOnChar ':' ip).getD 6 [] = (splitOnChar ':' ip).get ⟨6, h6lt⟩ := by
    rw [List.getD_eq_getElem?_getD, hq]
    rfl
  have htake : (splitOnChar ':' ip).take 7
      = (splitOnChar ':' ip).take 6 ++ [(splitOnChar ':' ip).get ⟨6, h6lt⟩] := by
    rw [List.take_succ, hq]
    rfl
  rw [htake, hgetD]
  exact getLast?_joinWithChar ':' _ _ (hgetD ▸ h7)

lemma expand_ipv6_block_eq (ip : Addr) (h8 : (splitOnChar ':' ip).length = 8)
    (h7 : (splitOnChar ':' ip).getD 6 [] ≠ []) :
    expand_ipv6_block ip = (List.range 8).map
      (fun i => (joinWithChar ':' ((splitOnChar ':' ip).take 7) ++ [':']) ++ [hexChar i]) := by
  have h6lt : 6 < (splitOnChar ':' ip).length := by omega
  have hmem : (splitOnChar ':' ip).getD 6 [] ∈ splitOnChar ':' ip := by
    rw [List.getD_eq_getElem?_getD, List.getElem?_eq_getElem h6lt]
    exact List.getElem_mem h6lt
  have hnosep : ':' ∉ (splitOnChar ':' ip).getD 6 [] :=
    splitOnChar_parts_no_sep ':' ip _ hmem
  have hlastq : ((splitOnChar ':' ip).getD 6 []).getLast? =
      some (((splitOnChar ':' ip).getD 6 []).getLast h7) :=
    List.getLast?_eq_getLast _ h7
  have hlastmem := List.getLast_mem h7
  have hends : endsWithChar ':' (joinWithChar ':' ((splitOnChar ':' ip).take 7)) = false := by
    have hl := expand_ipv6_pfx0_getLast ip h8 h7
    rw [hlastq] at hl
    simp only [endsWithChar, hl, decide_eq_false_iff_not]
    intro hcontr
    have hcol : ((splitOnChar ':' ip).getD 6 []).getLast h7 = ':' := by
      injection hcontr
    apply hnosep
    nth_rewrite 2 [← hcol]
    exact hlastmem
  simp only [expand_ipv6_block]
  rw [if_neg (show ¬ ((splitOnChar ':' ip).length < 2) by omega)]
  apply List.map_congr_left
  intro i _
  rw [if_pos (show (splitOnChar ':' ip).length ≥ 7 by omega)]
  rw [if_neg (show ¬ (endsWithChar ':'
    (joinWithChar ':' ((splitOnChar ':' ip).take 7)) = true) by simp [hends])]

lemma expand_ipv6_block_split (ip : Addr) (h8 : (splitOnChar ':' ip).length = 8)
    (i : Nat) (hi : i ∈ List.range 8) :
    splitOnChar ':' ((joinWithChar ':' ((splitOnChar ':' ip).take 7) ++ [':']) ++ [hexChar i])
      = (splitOnChar ':' ip).take 7 ++ [[hexChar i]] := by
  have htake_ne : (splitOnChar ':' ip).take 7 ≠ [] := by
    intro h
    have := congrArg List.length h
    simp [List.length_take, h8] at this
  have hjoin : joinWithChar ':' ((splitOnChar ':' ip).take 7 ++ [[hexChar i]])
      = joinWithChar ':' ((splitOnChar ':' ip).take 7) ++ ':' :: [hexChar i] :=
    joinWithChar_append_single ':' [hexChar i] _ htake_ne
  have heq : (joinWithChar ':' ((splitOnChar ':' ip).take 7) ++ [':']) ++ [hexChar i]
      = joinWithChar ':' ((splitOnChar ':' ip).take 7 ++ [[hexChar i]]) := by
    rw [hjoin, List.append_assoc]
    rfl
  rw [heq]
  apply splitOnChar_joinWithChar
  · simp
  · intro p hp'
    rcases List.mem_append.mp hp' with h | h
    · exact splitOnChar_parts_no_sep ':' ip p (List.take_subset 7 _ h)
    · rcases List.mem_singleton.mp h with rfl
      exact hexChar_no_colon i hi

/-- Claim C6 counterexample: `"1:2:3:4:5:6::8"` is an IPv6 literal whose
colon-split has exactly 8 segments, yet the expansion contains an address
that does not share the seed's first 7 segments (the empty 7th segment is
swallowed by the `endswith(':')` branch). -/
theorem expand_ipv6_block_shares_cex :
    (splitOnChar ':' ("1:2:3:4:5:6::8".toList)).length = 8 ∧
    ∃ a ∈ expand_ipv6_block ("1:2:3:4:5:6::8".toList),
      (splitOnChar ':' a).take 7 ≠ (splitOnChar ':' ("1:2:3:4:5:6::8".toList)).take 7 := by
  decide

/-- Claim C6 (amended): for every IPv6 literal whose colon-split has 8
segments with a nonempty 7th segment, the expander returns exactly 8
synthetic addresses, each splitting into the seed's first 7 segments
followed by one hex digit 0..7. -/
theorem expand_ipv6_block_spec (ip : Addr)
    (h8 : (splitOnChar ':' ip).length = 8)
    (h7 : (splitOnChar ':' ip).getD 6 [] ≠ []) :
    (expand_ipv6_block ip).length = 8 ∧
    (∀ a ∈ expand_ipv6_block ip, ∃ i, i < 8 ∧
      splitOnChar ':' a = (splitOnChar ':' ip).take 7 ++ [[hexChar i]]) ∧
    (∀ i, i < 8 → ∃ a ∈ expand_ipv6_block ip,
      splitOnChar ':' a = (splitOnChar ':' ip).take 7 ++ [[hexChar i]]) := by
  rw [expand_ipv6_block_eq ip h8 h7]
  refine ⟨by simp, ?_, ?_⟩
  · intro a ha
    obtain ⟨i, hi, rfl⟩ := List.mem_map.mp ha
    exact ⟨i, List.mem_range.mp hi, expand_ipv6_block_split ip h8 i hi⟩
  · intro i hilt
    have hi : i ∈ List.range 8 := List.mem_range.mpr hilt
    exact ⟨_, List.mem_map_of_mem _ hi, expand_ipv6_block_split ip h8 i hi⟩

theorem expand_ipv6_block_spec_witness :
    (splitOnChar ':' ("1:2:3:4:5:6:7:8".toList)).length = 8 ∧
    (splitOnChar ':' ("1:2:3:4:5:6:7:8".toList)).getD 6 [] ≠ [] ∧
    ((expand_ipv6_block ("1:2:3:4:5:6:7:8".toList)).length = 8 ∧
     (∀ a ∈ expand_ipv6_block ("1:2:3:4:5:6:7:8".toList), ∃ i, i < 8 ∧
       splitOnChar ':' a
         = (splitOnChar ':' ("1:2:3:4:5:6:7:8".toList)).take 7 ++ [[hexChar i]]) ∧
     (∀ i, i < 8 → ∃ a ∈ expand_ipv6_block ("1:2:3:4:5:6:7:8".toList),
       splitOnChar ':' a
         = (splitOnChar ':' ("1:2:3:4:5:6:7:8".toList)).take 7 ++ [[hexChar i]])) :=
  ⟨by decide, by decide,
   expand_ipv6_block_spec ("1:2:3:4:5:6:7:8".toList) (by decide) (by decide)⟩

/-! ## Claim theorems: adaptive orchestrator -/

lemma foldl_append_flatten (f : (Addr × List SpeedResult) → List Addr) :
    ∀ (l : List (Addr × List SpeedResult)) (acc : List Addr),
      l.foldl (fun acc b => acc ++ f b) acc = acc ++ (l.map f).flatten := by
  intro l
  induction l with
  | nil => intro acc; simp
  | cons b t ih => intro acc; simp [ih]

lemma rescan_candidates_eq (initial_results : List SpeedResult) :
    rescan_candidates initial_results =
      ((buildBlocks (initial_results.filter (·.success))).map
        (blockNewIps (initial_results.map (·.ip)))).flatten := by
  simp only [rescan_candidates]
  rw [foldl_append_flatten _ _ []]
  simp

lemma rescan_candidates_empty_iff (initial_results : List SpeedResult) :
    rescan_candidates initial_results = [] ↔
      ∀ b ∈ buildBlocks (initial_results.filter (·.success)),
        ∀ a ∈ blockExpansion b, a ∈ initial_results.map (·.ip) := by
  rw [rescan_candidates_eq, List.flatten_eq_nil_iff]
  constructor
  · intro h b hb a ha
    have hnil := h (blockNewIps (initial_results.map (·.ip)) b) (List.mem_map_of_mem _ hb)
    rw [blockNewIps, List.filter_eq_nil_iff] at hnil
    have := hnil a ha
    simpa using this
  · intro h x hx
    obtain ⟨b, hb, rfl⟩ := List.mem_map.mp hx
    rw [blockNewIps, List.filter_eq_nil_iff]
    intro a ha
    simpa using h b hb a ha

/-- Claim C7: the orchestrator returns exactly the seed-round results R1
when R1 has no success or when expanding the successful blocks yields no
address outside R1 (by address-string equality); otherwise it returns
R1 ++ R2, the concatenation with the expansion-round results. -/
theorem expand_and_rescan_spec (batchMeasure : List Addr → List SpeedResult)
    (initial_ips : List Addr) :
    (((batchMeasure initial_ips).filter (·.success) = [] ∨
        rescan_candidates (batchMeasure initial_ips) = []) →
      expand_and_rescan batchMeasure initial_ips = batchMeasure initial_ips) ∧
    ((batchMeasure initial_ips).filter (·.success) ≠ [] →
      rescan_candidates (batchMeasure initial_ips) ≠ [] →
      expand_and_rescan batchMeasure initial_ips
        = batchMeasure initial_ips
            ++ batchMeasure (rescan_candidates (batchMeasure initial_ips))) ∧
    (rescan_candidates (batchMeasure initial_ips) = [] ↔
      ∀ b ∈ buildBlocks ((batchMeasure initial_ips).filter (·.success)),
        ∀ a ∈ blockExpansion b, a ∈ (batchMeasure initial_ips).map (·.ip)) := by
  refine ⟨?_, ?_, rescan_candidates_empty_iff _⟩
  · rintro (h | h)
    · simp [expand_and_rescan, h]
    · by_cases hemp : (batchMeasure initial_ips).filter (·.success) = []
      · simp [expand_and_rescan, hemp]
      · simp [expand_and_rescan, hemp, h]
  · intro h1 h2
    simp [expand_and_rescan, h1, h2]

theorem expand_and_rescan_spec_witness :
    expand_and_rescan
        (fun ips => ips.map (fun a =>
          ({ ip := a, latency_ms := -1, success := false,
             error := some "timeout" } : SpeedResult)))
        [['a']]
      = (fun ips => ips.map (fun a =>
          ({ ip := a, latency_ms := -1, success := false,
             error := some "timeout" } : SpeedResult))) [['a']] :=
  (expand_and_rescan_spec
    (fun ips => ips.map (fun a =>
      ({ ip := a, latency_ms := -1, success := false,
         error := some "timeout" } : SpeedResult)))
    [['a']]).1 (Or.inl (by decide))
